import Mathlib

/-!
Verification development for the INF1316 KernelSim/SFSS repository.

The SFSS server (sfss_server.c) is embedded as pure Lean functions over an
abstract file-system state; the kernel simulator (KernelSim_T2.c) scheduler
and its event handlers are embedded as a step function on a kernel state.
Machine integers that can carry error codes are modelled as Int; byte
offsets and sizes as Nat; file bytes as Nat values.  Host I/O primitives
that can fail (unlink, fopen, fwrite, fseek, mkdir, opendir) are given an
explicit failure oracle so that every error path of the C code is a path
of the model.
-/

/-! ### Error codes (sfp_protocol.h) -/

def SFP_ERR_PERMISSION : Int := -1

def SFP_ERR_NOT_FOUND : Int := -2

def SFP_ERR_OFFSET_OOB : Int := -3

def SFP_ERR_IO : Int := -4

def SFP_MAX_PATH_LEN : Nat := 512

/-! ### SFSS server: paths and the permission check -/

/-- Decimal digits of a natural number, as printed by snprintf with d. -/
def charsOfNat (n : Nat) : List Char := (Nat.repr n).data

/-- The owner path built by check_permission: snprintf(owner_prefix, 10,
"/Ad", owner), which truncates the result to 9 characters. -/
def ownPfx (owner : Nat) : List Char := ('/' :: 'A' :: charsOfNat owner).take 9

/-- The shared path "/A0". -/
def sharedPfx : List Char := ['/', 'A', '0']

/-- strncmp(path, q, strlen(q)) == 0: q is a leading segment of path. -/
def strncmpEq : List Char → List Char → Bool
  | [], _ => true
  | _ :: _, [] => false
  | a :: q, b :: p => a == b && strncmpEq q p

/-- check_permission from sfss_server.c: owner k may access exactly /Ak,
/Ak/..., /A0 and /A0/... (the handlers always pass path_len = strlen(path),
so the length argument is folded into the list length). -/
def check_permission (owner : Nat) (path : List Char) : Bool :=
  (strncmpEq (ownPfx owner) path &&
    (path.length == (ownPfx owner).length || path.get? (ownPfx owner).length == some '/')) ||
  (strncmpEq sharedPfx path &&
    (path.length == sharedPfx.length || path.get? sharedPfx.length == some '/'))

/-! ### SFSS server: abstract file system and the RD/WR handlers -/

/-- The part of the host file system the file handlers see: contents of the
regular file at each path under the SFSS root, as a list of bytes. -/
def FS : Type := List Char → Option (List Nat)

def fsUpdate (fs : FS) (p : List Char) (v : Option (List Nat)) : FS :=
  fun q => if q = p then v else fs q

/-- The fields of an SfpMessage request the handlers consult. -/
structure Msg where
  owner : Nat
  path : List Char
  name : List Char
  offset : Nat
  payload : List Nat

structure RdRep where
  offset : Int
  payload : List Nat
deriving DecidableEq

def zeroPayload : List Nat := List.replicate 16 0

/-- fread of up to 16 bytes at offset o into a zero-filled 16-byte buffer. -/
def readBytes (content : List Nat) (o : Nat) : List Nat :=
  (content.drop o).take 16 ++
    List.replicate (16 - ((content.drop o).take 16).length) 0

/-- ftell after fseek to SEEK_END: the size of the file at p (0 when the
file is absent, which the write handler treats as an empty created file). -/
def fileSize (fs : FS) (p : List Char) : Nat := ((fs p).map List.length).getD 0

/-- handle_rd_req from sfss_server.c. -/
def handle_rd_req (fs : FS) (req : Msg) : RdRep :=
  if check_permission req.owner req.path = false then
    { offset := SFP_ERR_PERMISSION, payload := zeroPayload }
  else
    match fs req.path with
    | none => { offset := SFP_ERR_NOT_FOUND, payload := zeroPayload }
    | some content =>
      if content.length ≤ req.offset ∧ ¬(content.length = 0 ∧ req.offset = 0) then
        { offset := SFP_ERR_OFFSET_OOB, payload := zeroPayload }
      else
        { offset := (req.offset : Int), payload := readBytes content req.offset }

/-- Failure oracle for the host I/O primitives used by handle_wr_req. -/
structure WrOracle where
  unlinkOk : Bool
  createOk : Bool
  /-- some j: the hole-filling fwrite loop fails after j bytes were written. -/
  fillFail : Option Nat
  seekOk : Bool
  /-- some k: the final fwrite returns k instead of 16 (a short write). -/
  shortWrite : Option Nat

structure WrRep where
  offset : Int
deriving DecidableEq

/-- fwrite of data at position o of an open file whose current contents are
content (o never exceeds the length at the call sites below). -/
def writeAt (content : List Nat) (o : Nat) (data : List Nat) : List Nat :=
  content.take o ++ data ++ content.drop (o + data.length)

/-- Steps 7 of handle_wr_req: fseek to the offset and fwrite the payload. -/
def wrFinish (fs : FS) (req : Msg) (orc : WrOracle) (content : List Nat) :
    WrRep × FS :=
  if orc.seekOk = false then
    ({ offset := SFP_ERR_IO }, fsUpdate fs req.path (some content))
  else
    match orc.shortWrite with
    | some k =>
      ({ offset := SFP_ERR_IO },
       fsUpdate fs req.path (some (writeAt content req.offset (req.payload.take k))))
    | none =>
      ({ offset := (req.offset : Int) },
       fsUpdate fs req.path (some (writeAt content req.offset req.payload)))

/-- Step 6 of handle_wr_req: if the offset is past the end, fill the hole
with 0x20 bytes one fwrite at a time, then do the final write. -/
def wrHole (fs : FS) (req : Msg) (orc : WrOracle) (content : List Nat) :
    WrRep × FS :=
  if content.length < req.offset then
    match orc.fillFail with
    | some j =>
      ({ offset := SFP_ERR_IO },
       fsUpdate fs req.path
         (some (content ++ List.replicate (min j (req.offset - content.length)) 32)))
    | none =>
      wrFinish fs req orc (content ++ List.replicate (req.offset - content.length) 32)
  else wrFinish fs req orc content

/-- handle_wr_req from sfss_server.c.  The reply record carries the offset
field (which doubles as the status); the returned FS is the file system
after the call. -/
def handle_wr_req (fs : FS) (req : Msg) (orc : WrOracle) : WrRep × FS :=
  if check_permission req.owner req.path = false then
    ({ offset := SFP_ERR_PERMISSION }, fs)
  else if req.offset = 0 ∧ req.payload.headI = 0 then
    if (fs req.path).isSome ∧ orc.unlinkOk = true then
      ({ offset := 0 }, fsUpdate fs req.path none)
    else ({ offset := SFP_ERR_IO }, fs)
  else
    match fs req.path with
    | some content => wrHole fs req orc content
    | none =>
      if orc.createOk = true then wrHole (fsUpdate fs req.path (some [])) req orc []
      else ({ offset := SFP_ERR_NOT_FOUND }, fs)

/-! ### SFSS server: DC/DR status fields and the DL handler -/

/-- The path_len field of the DC_REP built by handle_dc_req (snprintf
truncates the echoed path to SFP_MAX_PATH_LEN - 1 characters). -/
def handle_dc_req (req : Msg) (mkdirOk : Bool) : Int :=
  if check_permission req.owner req.path = false then SFP_ERR_PERMISSION
  else if mkdirOk then
    Int.ofNat (min (req.path.length + 1 + req.name.length) (SFP_MAX_PATH_LEN - 1))
  else SFP_ERR_IO

/-- The path_len field of the DR_REP built by handle_dr_req (removeOk is
true when the unlink, or failing that the rmdir, succeeded). -/
def handle_dr_req (req : Msg) (removeOk : Bool) : Int :=
  if check_permission req.owner req.path = false then SFP_ERR_PERMISSION
  else if removeOk then Int.ofNat req.path.length
  else SFP_ERR_IO

/-- One readdir entry: its name and whether stat reported a directory. -/
structure DirEnt where
  name : List Char
  is_dir : Bool
deriving DecidableEq

structure DlRep where
  nrnames : Int
  fstlst : List (Nat × Nat × Bool)
  allfilenames : List Char
deriving DecidableEq

def isDotEnt (e : DirEnt) : Bool := (e.name == ['.']) || (e.name == ['.', '.'])

/-- The readdir loop of handle_dl_req: k is current_name_index and cur is
current_char_index; returns the recorded fstlstpositions entries and the
bytes appended to allfilenames. -/
def dlLoop : List DirEnt → Nat → Nat → List (Nat × Nat × Bool) × List Char
  | [], _, _ => ([], [])
  | e :: rest, k, cur =>
    if isDotEnt e then dlLoop rest k cur
    else if 40 ≤ k then ([], [])
    else if 2048 ≤ cur + e.name.length then ([], [])
    else
      let r := dlLoop rest (k + 1) (cur + e.name.length)
      ((cur, cur + e.name.length - 1, e.is_dir) :: r.1, e.name ++ r.2)

/-- handle_dl_req from sfss_server.c; dir is none when opendir fails, and
otherwise the readdir stream in order. -/
def handle_dl_req (req : Msg) (dir : Option (List DirEnt)) : DlRep :=
  if check_permission req.owner req.path = false then
    { nrnames := SFP_ERR_PERMISSION, fstlst := [], allfilenames := [] }
  else
    match dir with
    | none => { nrnames := SFP_ERR_NOT_FOUND, fstlst := [], allfilenames := [] }
    | some es =>
      let r := dlLoop es 0 0
      { nrnames := Int.ofNat r.1.length, fstlst := r.1, allfilenames := r.2 }

/-- The entries the listing records, stated the way the claim states it:
skip the dot entries, stop at the 40th entry or as soon as appending a name
would reach the 2048-byte buffer limit. -/
def dlTaken : List DirEnt → Nat → Nat → List DirEnt
  | [], _, _ => []
  | e :: rest, k, cur =>
    if isDotEnt e then dlTaken rest k cur
    else if 40 ≤ k ∨ 2048 ≤ cur + e.name.length then []
    else e :: dlTaken rest (k + 1) (cur + e.name.length)

/-- The (start_index, end_index, is_dir) triples for consecutive names
concatenated starting at position cur. -/
def positionsFrom : Nat → List DirEnt → List (Nat × Nat × Bool)
  | _, [] => []
  | cur, e :: rest =>
    (cur, cur + e.name.length - 1, e.is_dir) :: positionsFrom (cur + e.name.length) rest

/-! ### C1: the permission boundary -/

theorem strncmpEq_iff (q p : List Char) : strncmpEq q p = true ↔ ∃ t, p = q ++ t := by
  induction q generalizing p with
  | nil => simp [strncmpEq]
  | cons a q ih =>
    cases p with
    | nil => simp [strncmpEq]
    | cons b p =>
      simp only [strncmpEq, Bool.and_eq_true, beq_iff_eq, ih, List.cons_append]
      constructor
      · rintro ⟨rfl, t, rfl⟩; exact ⟨t, rfl⟩
      · rintro ⟨t, h⟩
        injection h with h1 h2
        exact ⟨h1.symm, t, h2⟩

theorem get?_append_self (q t : List Char) : (q ++ t).get? q.length = t.get? 0 := by
  induction q with
  | nil => rfl
  | cons a q ih => simpa using ih

/-- The shape of the per-prefix test inside check_permission: the prefix
matches exactly when the path equals it or continues it with a slash. -/
theorem exact_seg_iff (q p : List Char) :
    (strncmpEq q p &&
      (p.length == q.length || p.get? q.length == some '/')) = true ↔
      (p = q ∨ ∃ t, p = q ++ '/' :: t) := by
  simp only [Bool.and_eq_true, Bool.or_eq_true, beq_iff_eq, strncmpEq_iff]
  constructor
  · rintro ⟨⟨t, rfl⟩, h | h⟩
    · have ht : t = [] := by
        rw [List.length_append] at h
        have h0 : t.length = 0 := by omega
        exact List.length_eq_zero.mp h0
      subst ht
      exact Or.inl (by simp)
    · rw [get?_append_self] at h
      cases t with
      | nil => simp at h
      | cons c t' =>
        have hc : some c = some '/' := h
        injection hc with hc
        subst hc
        exact Or.inr ⟨t', rfl⟩
  · rintro (rfl | ⟨t, rfl⟩)
    · exact ⟨⟨[], by simp⟩, Or.inl rfl⟩
    · exact ⟨⟨'/' :: t, rfl⟩, Or.inr (by rw [get?_append_self]; rfl)⟩

theorem ownPfx_small (k : Nat) (hk : k ≤ 9) : ownPfx k = '/' :: 'A' :: charsOfNat k := by
  interval_cases k <;> rfl

/-- The path sets the claim says are permitted, word for word: p equals /Ak
or begins with /Ak/, or p equals /A0 or begins with /A0/. -/
def claimPermitted (k : Nat) (p : List Char) : Prop :=
  p = '/' :: 'A' :: charsOfNat k ∨
    (∃ t, p = ('/' :: 'A' :: charsOfNat k) ++ '/' :: t) ∨
    p = sharedPfx ∨ ∃ t, p = sharedPfx ++ '/' :: t

theorem check_permission_iff (k : Nat) (p : List Char) (hk : k ≤ 9) :
    check_permission k p = true ↔ claimPermitted k p := by
  unfold check_permission claimPermitted
  rw [ownPfx_small k hk]
  simp only [Bool.or_eq_true]
  rw [exact_seg_iff, exact_seg_iff]
  tauto

/-- C1: for every SFSS request with owner k (the system's owners are 1..5;
we allow any single-digit owner so that the snprintf buffer plays no role)
the operation is permitted iff the path equals /Ak or begins with /Ak/, or
equals /A0 or begins with /A0/; on every other path each handler skips the
operation and writes PERMISSION (-1) into the reply's status field (offset
for RD/WR, path_len for DC/DR, nrnames for DL), leaving the file system
unchanged. -/
theorem C1_permission_boundary (req : Msg) (fs : FS) (orc : WrOracle)
    (mk rm : Bool) (dir : Option (List DirEnt)) (hk : req.owner ≤ 9) :
    (check_permission req.owner req.path = true ↔
      claimPermitted req.owner req.path) ∧
    (¬claimPermitted req.owner req.path →
      (handle_rd_req fs req).offset = SFP_ERR_PERMISSION ∧
      (handle_wr_req fs req orc).1.offset = SFP_ERR_PERMISSION ∧
      (handle_wr_req fs req orc).2 = fs ∧
      handle_dc_req req mk = SFP_ERR_PERMISSION ∧
      handle_dr_req req rm = SFP_ERR_PERMISSION ∧
      (handle_dl_req req dir).nrnames = SFP_ERR_PERMISSION) := by
  have hiff := check_permission_iff req.owner req.path hk
  refine ⟨hiff, fun hnot => ?_⟩
  have hfalse : check_permission req.owner req.path = false := by
    cases h : check_permission req.owner req.path with
    | false => rfl
    | true => exact absurd (hiff.mp h) hnot
  refine ⟨?_, ?_, ?_, ?_, ?_, ?_⟩ <;>
    simp [handle_rd_req, handle_wr_req, handle_dc_req, handle_dr_req,
      handle_dl_req, hfalse]

/-- A denied request: owner 5 asking for /A50/x (the very case the claim
singles out). -/
def reqDenied : Msg :=
  { owner := 5, path := ['/', 'A', '5', '0', '/', 'x'], name := [],
    offset := 0, payload := List.replicate 16 1 }

def fsEmpty : FS := fun _ => none

def orcAllOk : WrOracle :=
  { unlinkOk := true, createOk := true, fillFail := none, seekOk := true,
    shortWrite := none }

theorem C1_permission_boundary_witness :
    (handle_rd_req fsEmpty reqDenied).offset = SFP_ERR_PERMISSION ∧
    (handle_dl_req reqDenied none).nrnames = SFP_ERR_PERMISSION := by
  have h := C1_permission_boundary reqDenied fsEmpty orcAllOk true true none
    (by decide)
  have hnot : ¬claimPermitted reqDenied.owner reqDenied.path := by
    intro hc
    have := (check_permission_iff reqDenied.owner reqDenied.path (by decide)).mpr hc
    revert this
    decide
  exact ⟨(h.2 hnot).1, (h.2 hnot).2.2.2.2.2⟩

/-! ### Byte-level facts about readBytes and writeAt -/

theorem readBytes_length (c : List Nat) (o : Nat) : (readBytes c o).length = 16 := by
  have h : ((c.drop o).take 16).length ≤ 16 := by
    simp [List.length_take]
  simp only [readBytes, List.length_append, List.length_replicate]
  omega

theorem readBytes_get? (c : List Nat) (o i : Nat) (hi : i < 16) :
    (readBytes c o)[i]? = some (c.getD (o + i) 0) := by
  unfold readBytes
  by_cases h : i < ((c.drop o).take 16).length
  · rw [List.getElem?_append_left h]
    rw [List.getElem?_take_of_lt hi, List.getElem?_drop]
    have hlt : o + i < c.length := by
      simp only [List.length_take, List.length_drop] at h
      omega
    simp [List.getD_eq_getElem?_getD, List.getElem?_eq_getElem hlt]
  · rw [List.getElem?_append_right (Nat.le_of_not_lt h)]
    have hlen : c.length ≤ o + i := by
      simp only [List.length_take, List.length_drop] at h
      omega
    have hrep : i - ((c.drop o).take 16).length <
        16 - ((c.drop o).take 16).length := by
      simp only [List.length_take, List.length_drop] at h ⊢
      omega
    rw [List.getElem?_replicate, if_pos hrep]
    simp [List.getD_eq_getElem?_getD, List.getElem?_eq_none hlen]

theorem writeAt_length (c : List Nat) (o : Nat) (d : List Nat) (h : o ≤ c.length) :
    (writeAt c o d).length = max c.length (o + d.length) := by
  simp only [writeAt, List.length_append, List.length_take, List.length_drop]
  omega

theorem writeAt_drop_self (c : List Nat) (o : Nat) (d : List Nat) (h : o ≤ c.length) :
    ((writeAt c o d).drop o).take d.length = d := by
  have htake : (c.take o).length = o := by
    simp [List.length_take]
    omega
  have hdrop : (writeAt c o d).drop o = d ++ c.drop (o + d.length) := by
    unfold writeAt
    rw [List.append_assoc]
    nth_rewrite 1 [← htake]
    rw [List.drop_left]
  rw [hdrop, List.take_left]

theorem writeAt_getD_lt (c : List Nat) (o : Nat) (d : List Nat) (i : Nat)
    (hio : i < o) (hic : i < c.length) :
    (writeAt c o d).getD i 0 = c.getD i 0 := by
  have hit : i < (c.take o).length := by
    simp [List.length_take]
    omega
  simp only [writeAt, List.getD_eq_getElem?_getD, List.append_assoc]
  rw [List.getElem?_append_left hit, List.getElem?_take_of_lt hio]

/-! ### Success shape of the write handler -/

theorem wrFinish_success (fs : FS) (req : Msg) (orc : WrOracle)
    (content : List Nat) (ho : req.offset ≤ content.length)
    (hok : 0 ≤ (wrFinish fs req orc content).1.offset) :
    (wrFinish fs req orc content).1.offset = (req.offset : Int) ∧
    (wrFinish fs req orc content).2 req.path =
      some (writeAt content req.offset req.payload) := by
  cases hseek : orc.seekOk with
  | false =>
    exfalso
    simp [wrFinish, hseek, SFP_ERR_IO] at hok
  | true =>
    cases hsw : orc.shortWrite with
    | some k =>
      exfalso
      simp [wrFinish, hseek, hsw, SFP_ERR_IO] at hok
    | none =>
      simp [wrFinish, hseek, hsw, fsUpdate]

theorem wrHole_success (fs : FS) (req : Msg) (orc : WrOracle)
    (content : List Nat) (h16 : req.payload.length = 16)
    (hok : 0 ≤ (wrHole fs req orc content).1.offset) :
    (wrHole fs req orc content).1.offset = (req.offset : Int) ∧
    ∃ c', (wrHole fs req orc content).2 req.path = some c' ∧
      c'.length = max content.length (req.offset + 16) ∧
      (c'.drop req.offset).take 16 = req.payload ∧
      (∀ i, content.length ≤ i → i < req.offset → c'.getD i 0 = 32) := by
  by_cases hlt : content.length < req.offset
  · cases hff : orc.fillFail with
    | some j =>
      exfalso
      simp [wrHole, hlt, hff, SFP_ERR_IO] at hok
    | none =>
      have heq : wrHole fs req orc content =
          wrFinish fs req orc
            (content ++ List.replicate (req.offset - content.length) 32) := by
        simp [wrHole, hlt, hff]
      rw [heq] at hok ⊢
      set c0 := content ++ List.replicate (req.offset - content.length) 32 with hc0
      have hc0len : c0.length = req.offset := by
        simp [hc0]
        omega
      have ho : req.offset ≤ c0.length := le_of_eq hc0len.symm
      obtain ⟨h1, h2⟩ := wrFinish_success fs req orc c0 ho hok
      refine ⟨h1, writeAt c0 req.offset req.payload, h2, ?_, ?_, ?_⟩
      · rw [writeAt_length _ _ _ ho, hc0len, h16]
        omega
      · rw [← h16]
        exact writeAt_drop_self c0 req.offset req.payload ho
      · intro i hi1 hi2
        rw [writeAt_getD_lt c0 req.offset req.payload i hi2 (by rw [hc0len]; exact hi2)]
        rw [hc0, List.getD_eq_getElem?_getD, List.getElem?_append_right hi1,
          List.getElem?_replicate, if_pos (by omega)]
        rfl
  · push_neg at hlt
    have heq : wrHole fs req orc content = wrFinish fs req orc content := by
      unfold wrHole
      rw [if_neg (by omega)]
    rw [heq] at hok ⊢
    obtain ⟨h1, h2⟩ := wrFinish_success fs req orc content hlt hok
    refine ⟨h1, writeAt content req.offset req.payload, h2, ?_, ?_, ?_⟩
    · rw [writeAt_length _ _ _ hlt, h16]
    · rw [← h16]
      exact writeAt_drop_self content req.offset req.payload hlt
    · intro i hi1 hi2
      exact absurd hi2 (by omega)

theorem handle_wr_req_eq_wrHole (fs : FS) (req : Msg) (orc : WrOracle)
    (hperm : check_permission req.owner req.path = true)
    (hnr : ¬(req.offset = 0 ∧ req.payload.headI = 0))
    (hok : 0 ≤ (handle_wr_req fs req orc).1.offset) :
    (∃ content, fs req.path = some content ∧
        handle_wr_req fs req orc = wrHole fs req orc content ∧
        fileSize fs req.path = content.length) ∨
      (fs req.path = none ∧ orc.createOk = true ∧
        handle_wr_req fs req orc = wrHole (fsUpdate fs req.path (some [])) req orc [] ∧
        fileSize fs req.path = 0) := by
  cases hfs : fs req.path with
  | some content =>
    left
    refine ⟨content, rfl, ?_, ?_⟩
    · simp [handle_wr_req, hperm, hnr, hfs]
    · simp [fileSize, hfs]
  | none =>
    right
    cases hco : orc.createOk with
    | false =>
      exfalso
      simp [handle_wr_req, hperm, hnr, hfs, hco, SFP_ERR_NOT_FOUND] at hok
    | true =>
      refine ⟨rfl, rfl, ?_, by simp [fileSize, hfs]⟩
      simp [handle_wr_req, hperm, hnr, hfs, hco]

/-! ### C4: write-then-read round trip -/

/-- C4: for a permitted path, any offset and any 16-byte payload that does
not trigger the remove special case, a WR_REQ whose reply status is
non-negative followed by a RD_REQ at the same offset returns exactly the
written payload, and the reply offset equals the requested offset. -/
theorem C4_write_then_read (fs : FS) (req : Msg) (orc : WrOracle)
    (h16 : req.payload.length = 16)
    (hnr : ¬(req.offset = 0 ∧ req.payload.headI = 0))
    (hperm : check_permission req.owner req.path = true)
    (hok : 0 ≤ (handle_wr_req fs req orc).1.offset) :
    (handle_rd_req (handle_wr_req fs req orc).2 req).offset = (req.offset : Int) ∧
    (handle_rd_req (handle_wr_req fs req orc).2 req).payload = req.payload := by
  have key : ∃ c', (handle_wr_req fs req orc).2 req.path = some c' ∧
      req.offset + 16 ≤ c'.length ∧
      (c'.drop req.offset).take 16 = req.payload := by
    rcases handle_wr_req_eq_wrHole fs req orc hperm hnr hok with
      ⟨content, hfs, heq, _⟩ | ⟨hfs, hco, heq, _⟩ <;>
    · rw [heq] at hok ⊢
      obtain ⟨_, c', h2, hlen, hslice, _⟩ := wrHole_success _ req orc _ h16 hok
      exact ⟨c', h2, by omega, hslice⟩
  obtain ⟨c', hc', hlen, hslice⟩ := key
  have hle : ¬(c'.length ≤ req.offset) := by omega
  refine ⟨?_, ?_⟩ <;> simp [handle_rd_req, hperm, hc', hle]
  unfold readBytes
  rw [hslice, h16]
  simp

def reqC4 : Msg :=
  { owner := 2, path := ['/', 'A', '2', '/', 'f'], name := [],
    offset := 16, payload := List.replicate 16 7 }

theorem C4_write_then_read_witness :
    (handle_rd_req (handle_wr_req fsEmpty reqC4 orcAllOk).2 reqC4).offset =
      ((16 : Nat) : Int) ∧
    (handle_rd_req (handle_wr_req fsEmpty reqC4 orcAllOk).2 reqC4).payload =
      reqC4.payload :=
  C4_write_then_read fsEmpty reqC4 orcAllOk (by decide) (by decide) (by decide)
    (by decide)

/-! ### C5: the remove special case -/

/-- C5: on a permitted path naming an existing file, a WR_REQ with
offset 0 and first payload byte 0 unlinks the file — replying 0 on success
and IO (-4) on failure — and after a successful remove a RD_REQ on the
same path replies NOT_FOUND (-2). -/
theorem C5_remove_then_read (fs : FS) (req : Msg) (orc : WrOracle)
    (hperm : check_permission req.owner req.path = true)
    (ho : req.offset = 0) (hp : req.payload.headI = 0)
    (hex : (fs req.path).isSome = true) :
    (orc.unlinkOk = true →
      (handle_wr_req fs req orc).1.offset = 0 ∧
      (handle_wr_req fs req orc).2 req.path = none ∧
      (handle_rd_req (handle_wr_req fs req orc).2 req).offset =
        SFP_ERR_NOT_FOUND) ∧
    (orc.unlinkOk = false →
      (handle_wr_req fs req orc).1.offset = SFP_ERR_IO ∧
      (handle_wr_req fs req orc).2 = fs) := by
  constructor
  · intro hu
    have hwr : handle_wr_req fs req orc =
        ({ offset := 0 }, fsUpdate fs req.path none) := by
      simp [handle_wr_req, hperm, ho, hp, hex, hu]
    rw [hwr]
    refine ⟨rfl, ?_, ?_⟩ <;> simp [fsUpdate, handle_rd_req, hperm]
  · intro hu
    simp [handle_wr_req, hperm, ho, hp, hex, hu]

def reqC5 : Msg :=
  { owner := 1, path := ['/', 'A', '0', '/', 'g'], name := [],
    offset := 0, payload := List.replicate 16 0 }

def fsC5 : FS := fsUpdate fsEmpty reqC5.path (some [65, 66])

theorem C5_remove_then_read_witness :
    (orcAllOk.unlinkOk = true →
      (handle_wr_req fsC5 reqC5 orcAllOk).1.offset = 0 ∧
      (handle_wr_req fsC5 reqC5 orcAllOk).2 reqC5.path = none ∧
      (handle_rd_req (handle_wr_req fsC5 reqC5 orcAllOk).2 reqC5).offset =
        SFP_ERR_NOT_FOUND) ∧
    (orcAllOk.unlinkOk = false →
      (handle_wr_req fsC5 reqC5 orcAllOk).1.offset = SFP_ERR_IO ∧
      (handle_wr_req fsC5 reqC5 orcAllOk).2 = fsC5) :=
  C5_remove_then_read fsC5 reqC5 orcAllOk (by decide) (by decide) (by decide)
    (by decide)

/-! ### C6: sparse-hole fill -/

/-- C6: for a permitted path and an offset strictly beyond the current
file size s, a successful WR_REQ yields a file of size exactly offset + 16
whose bytes in the range from s up to the offset all equal 0x20 and whose
tail from the offset on is exactly the 16-byte payload. -/
theorem C6_sparse_hole_fill (fs : FS) (req : Msg) (orc : WrOracle)
    (h16 : req.payload.length = 16)
    (hperm : check_permission req.owner req.path = true)
    (hgt : fileSize fs req.path < req.offset)
    (hok : 0 ≤ (handle_wr_req fs req orc).1.offset) :
    ∃ c', (handle_wr_req fs req orc).2 req.path = some c' ∧
      c'.length = req.offset + 16 ∧
      (∀ i, fileSize fs req.path ≤ i → i < req.offset → c'.getD i 0 = 32) ∧
      c'.drop req.offset = req.payload := by
  have hnr : ¬(req.offset = 0 ∧ req.payload.headI = 0) := by
    intro h
    omega
  rcases handle_wr_req_eq_wrHole fs req orc hperm hnr hok with
    ⟨content, hfs, heq, hsize⟩ | ⟨hfs, hco, heq, hsize⟩
  · rw [heq] at hok ⊢
    obtain ⟨_, c', h2, hlen, hslice, hfill⟩ := wrHole_success _ req orc _ h16 hok
    have hclen : c'.length = req.offset + 16 := by
      rw [hlen]
      omega
    refine ⟨c', h2, hclen, ?_, ?_⟩
    · intro i hi1 hi2
      exact hfill i (by omega) hi2
    · have hdlen : (c'.drop req.offset).length = 16 := by
        rw [List.length_drop, hclen]
        omega
      calc c'.drop req.offset = (c'.drop req.offset).take 16 :=
            (List.take_of_length_le (le_of_eq hdlen)).symm
        _ = req.payload := hslice
  · rw [heq] at hok ⊢
    obtain ⟨_, c', h2, hlen, hslice, hfill⟩ := wrHole_success _ req orc _ h16 hok
    simp only [List.length_nil, Nat.zero_max] at hlen
    refine ⟨c', h2, hlen, ?_, ?_⟩
    · intro i hi1 hi2
      exact hfill i (Nat.zero_le i) hi2
    · have hdlen : (c'.drop req.offset).length = 16 := by
        rw [List.length_drop, hlen]
        omega
      calc c'.drop req.offset = (c'.drop req.offset).take 16 :=
            (List.take_of_length_le (le_of_eq hdlen)).symm
        _ = req.payload := hslice

def reqC6 : Msg :=
  { owner := 2, path := ['/', 'A', '2', '/', 'h'], name := [],
    offset := 48, payload := List.replicate 16 9 }

def fsC6 : FS := fsUpdate fsEmpty reqC6.path (some [1, 2])

theorem C6_sparse_hole_fill_witness :
    ∃ c', (handle_wr_req fsC6 reqC6 orcAllOk).2 reqC6.path = some c' ∧
      c'.length = reqC6.offset + 16 ∧
      (∀ i, fileSize fsC6 reqC6.path ≤ i → i < reqC6.offset → c'.getD i 0 = 32) ∧
      c'.drop reqC6.offset = reqC6.payload :=
  C6_sparse_hole_fill fsC6 reqC6 orcAllOk (by decide) (by decide) (by decide)
    (by decide)

/-! ### C7: error codes of the non-remove write path -/

/-- C7 counterexample: when the file is absent and creating it fails, the
code replies NOT_FOUND (-2), not IO (-4) as the claim states — shown on
the concrete request WR(owner 1, /A1/f, offset 0, payload starting 1)
against an empty file system with a failing create. -/
theorem C7_create_failure_not_IO :
    check_permission 1 ['/', 'A', '1', '/', 'f'] = true ∧
    ¬((0 : Nat) = 0 ∧
      (Msg.mk 1 ['/', 'A', '1', '/', 'f'] [] 0 (1 :: List.replicate 15 0)).payload.headI = 0) ∧
    fsEmpty ['/', 'A', '1', '/', 'f'] = none ∧
    (handle_wr_req fsEmpty
        (Msg.mk 1 ['/', 'A', '1', '/', 'f'] [] 0 (1 :: List.replicate 15 0))
        (WrOracle.mk true false none true none)).1.offset = SFP_ERR_NOT_FOUND ∧
    (handle_wr_req fsEmpty
        (Msg.mk 1 ['/', 'A', '1', '/', 'f'] [] 0 (1 :: List.replicate 15 0))
        (WrOracle.mk true false none true none)).1.offset ≠ SFP_ERR_IO := by
  refine ⟨by decide, by decide, rfl, by decide, by decide⟩

/-- C7 as amended: in the non-remove write path the file is opened
read-write and created if absent; failure to create the missing file sets
the reply offset to NOT_FOUND (-2), while a hole-fill failure, a seek
failure or a short write set it to IO (-4); with no failure the reply
offset is the requested offset. -/
theorem C7_write_error_codes (fs : FS) (req : Msg) (orc : WrOracle)
    (hperm : check_permission req.owner req.path = true)
    (hnr : ¬(req.offset = 0 ∧ req.payload.headI = 0)) :
    (handle_wr_req fs req orc).1.offset =
      if fs req.path = none ∧ orc.createOk = false then SFP_ERR_NOT_FOUND
      else if fileSize fs req.path < req.offset ∧ (orc.fillFail).isSome then
        SFP_ERR_IO
      else if orc.seekOk = false then SFP_ERR_IO
      else if (orc.shortWrite).isSome then SFP_ERR_IO
      else (req.offset : Int) := by
  have hbase : ∀ content, (wrHole fs req orc content).1.offset =
      (if content.length < req.offset ∧ (orc.fillFail).isSome then SFP_ERR_IO
       else if orc.seekOk = false then SFP_ERR_IO
       else if (orc.shortWrite).isSome then SFP_ERR_IO
       else (req.offset : Int)) ∧
      ∀ fs', (wrHole fs' req orc content).1.offset =
        (wrHole fs req orc content).1.offset := by
    intro content
    constructor
    · by_cases hlt : content.length < req.offset
      · cases hff : orc.fillFail with
        | some j => simp [wrHole, hlt, hff]
        | none =>
          cases hseek : orc.seekOk with
          | false => simp [wrHole, wrFinish, hlt, hff, hseek]
          | true =>
            cases hsw : orc.shortWrite with
            | some k => simp [wrHole, wrFinish, hlt, hff, hseek, hsw]
            | none => simp [wrHole, wrFinish, hlt, hff, hseek, hsw]
      · cases hseek : orc.seekOk with
        | false => simp [wrHole, wrFinish, hlt, hseek]
        | true =>
          cases hsw : orc.shortWrite with
          | some k => simp [wrHole, wrFinish, hlt, hseek, hsw]
          | none => simp [wrHole, wrFinish, hlt, hseek, hsw]
    · intro fs'
      by_cases hlt : content.length < req.offset <;>
        cases hff : orc.fillFail <;>
        cases hseek : orc.seekOk <;>
        cases hsw : orc.shortWrite <;>
        simp [wrHole, wrFinish, hlt, hff, hseek, hsw]
  cases hfs : fs req.path with
  | none =>
    cases hco : orc.createOk with
    | false => simp [handle_wr_req, hperm, hnr, hfs, hco]
    | true =>
      have hw : handle_wr_req fs req orc =
          wrHole (fsUpdate fs req.path (some [])) req orc [] := by
        simp [handle_wr_req, hperm, hnr, hfs, hco]
      rw [hw, (hbase []).2 (fsUpdate fs req.path (some [])), (hbase []).1]
      simp [fileSize, hfs, hco]
  | some content =>
    have hw : handle_wr_req fs req orc = wrHole fs req orc content := by
      simp [handle_wr_req, hperm, hnr, hfs]
    rw [hw, (hbase content).1]
    simp [fileSize, hfs]

def orcSeekFail : WrOracle := WrOracle.mk true true none false none

theorem C7_write_error_codes_witness :
    (handle_wr_req fsEmpty reqC4 orcSeekFail).1.offset =
      if fsEmpty reqC4.path = none ∧ orcSeekFail.createOk = false then
        SFP_ERR_NOT_FOUND
      else if fileSize fsEmpty reqC4.path < reqC4.offset ∧
          (orcSeekFail.fillFail).isSome then SFP_ERR_IO
      else if orcSeekFail.seekOk = false then SFP_ERR_IO
      else if (orcSeekFail.shortWrite).isSome then SFP_ERR_IO
      else (reqC4.offset : Int) :=
  C7_write_error_codes fsEmpty reqC4 orcSeekFail (by decide) (by decide)

/-! ### C8: read handler error codes and payload -/

/-- C8: on a permitted RD_REQ the reply offset is NOT_FOUND when the file
is absent; OFFSET_OOB when the offset reaches the file size outside the
empty-file-at-offset-0 case; and otherwise the requested offset, with the
16-byte payload holding the file bytes from that offset on and zeros past
the end of the file. -/
theorem C8_read_reply (fs : FS) (req : Msg)
    (hperm : check_permission req.owner req.path = true) :
    (fs req.path = none →
      (handle_rd_req fs req).offset = SFP_ERR_NOT_FOUND) ∧
    (∀ content, fs req.path = some content →
      content.length ≤ req.offset → ¬(content.length = 0 ∧ req.offset = 0) →
      (handle_rd_req fs req).offset = SFP_ERR_OFFSET_OOB) ∧
    (∀ content, fs req.path = some content →
      (req.offset < content.length ∨ (content.length = 0 ∧ req.offset = 0)) →
      (handle_rd_req fs req).offset = (req.offset : Int) ∧
      (handle_rd_req fs req).payload.length = 16 ∧
      ∀ i, i < 16 →
        (handle_rd_req fs req).payload[i]? =
          some (content.getD (req.offset + i) 0)) := by
  refine ⟨?_, ?_, ?_⟩
  · intro h
    simp [handle_rd_req, hperm, h]
  · intro content h h1 h2
    have himp : content = [] → ¬req.offset = 0 := by
      intro hc h0
      exact h2 ⟨by simp [hc], h0⟩
    simp [handle_rd_req, hperm, h, h1]
    rw [if_pos himp]
  · intro content h hlt
    have hcond : ¬(content.length ≤ req.offset ∧
        ¬(content.length = 0 ∧ req.offset = 0)) := by
      rcases hlt with h1 | ⟨h1, h2⟩ <;> omega
    have hrd : handle_rd_req fs req =
        { offset := (req.offset : Int), payload := readBytes content req.offset } := by
      rw [handle_rd_req.eq_def]
      simp only [hperm, h]
      rw [if_neg (by simp), if_neg hcond]
    rw [hrd]
    exact ⟨rfl, readBytes_length content req.offset,
      fun i hi => readBytes_get? content req.offset i hi⟩

def reqC8 : Msg :=
  { owner := 3, path := ['/', 'A', '3', '/', 'r'], name := [],
    offset := 0, payload := List.replicate 16 0 }

theorem C8_read_reply_witness :
    (handle_rd_req fsEmpty reqC8).offset = SFP_ERR_NOT_FOUND :=
  (C8_read_reply fsEmpty reqC8 (by decide)).1 rfl

/-! ### C9: the directory listing -/

theorem positionsFrom_length (l : List DirEnt) : ∀ cur,
    (positionsFrom cur l).length = l.length := by
  induction l with
  | nil => intro cur; rfl
  | cons e rest ih => intro cur; simp [positionsFrom, ih]

theorem dlLoop_eq (es : List DirEnt) : ∀ k cur,
    dlLoop es k cur =
      (positionsFrom cur (dlTaken es k cur),
        ((dlTaken es k cur).map DirEnt.name).flatten) := by
  induction es with
  | nil => intro k cur; rfl
  | cons e rest ih =>
    intro k cur
    by_cases hdot : isDotEnt e
    · simp [dlLoop, dlTaken, hdot, ih]
    · by_cases h40 : 40 ≤ k
      · simp [dlLoop, dlTaken, hdot, h40, positionsFrom]
      · by_cases hbuf : 2048 ≤ cur + e.name.length
        · simp [dlLoop, dlTaken, hdot, h40, hbuf, positionsFrom]
        · simp [dlLoop, dlTaken, hdot, h40, hbuf, positionsFrom, ih]

theorem dlTaken_length_le (es : List DirEnt) : ∀ k cur,
    (dlTaken es k cur).length ≤ 40 - k := by
  induction es with
  | nil => intro k cur; simp [dlTaken]
  | cons e rest ih =>
    intro k cur
    by_cases hdot : isDotEnt e
    · simp only [dlTaken, hdot, if_true]
      exact ih k cur
    · by_cases hstop : 40 ≤ k ∨ 2048 ≤ cur + e.name.length
      · simp [dlTaken, hdot, hstop]
      · push_neg at hstop
        have hcond : ¬(40 ≤ k ∨ 2048 ≤ cur + e.name.length) := by omega
        have hd : isDotEnt e = false := by
          revert hdot
          cases isDotEnt e <;> simp
        rw [show dlTaken (e :: rest) k cur =
            e :: dlTaken rest (k + 1) (cur + e.name.length) from by
          simp [dlTaken, hd, hcond]]
        have := ih (k + 1) (cur + e.name.length)
        simp only [List.length_cons]
        omega

theorem positionsFrom_spec (l : List DirEnt) : ∀ cur i d, l[i]? = some d →
    (positionsFrom cur l)[i]? =
      some (cur + (((l.take i).map DirEnt.name).flatten).length,
        cur + (((l.take i).map DirEnt.name).flatten).length + d.name.length - 1,
        d.is_dir) ∧
    ((l.map DirEnt.name).flatten.drop
        (((l.take i).map DirEnt.name).flatten).length).take d.name.length =
      d.name := by
  induction l with
  | nil =>
    intro cur i d h
    simp at h
  | cons e rest ih =>
    intro cur i d h
    cases i with
    | zero =>
      have hd : e = d := by simpa using h
      subst hd
      constructor
      · simp [positionsFrom]
      · simp [List.take_left]
    | succ n =>
      have h' : rest[n]? = some d := by simpa using h
      obtain ⟨h1, h2⟩ := ih (cur + e.name.length) n d h'
      have htake : (e :: rest).take (n + 1) = e :: rest.take n := rfl
      constructor
      · have hpf : (positionsFrom cur (e :: rest))[n + 1]? =
            (positionsFrom (cur + e.name.length) rest)[n]? := by
          simp [positionsFrom]
        rw [hpf, h1, htake]
        simp only [List.map_cons, List.flatten_cons, List.length_append,
          Option.some.injEq, Prod.mk.injEq]
        refine ⟨by omega, by omega, trivial⟩
      · rw [htake]
        simp only [List.map_cons, List.flatten_cons, List.length_append]
        rw [List.drop_append]
        exact h2

/-- C9: on a permitted DL_REQ, opendir failure yields nrnames NOT_FOUND;
otherwise the reply lists exactly the entries selected by dlTaken (skip
dots, at most 40 entries, stop before the 2048-byte buffer fills):
nrnames is their count, allfilenames is their names concatenated with no
separator, and entry i records (start, start + len - 1, is_dir) with the
slice of allfilenames at those positions equal to the i-th recorded name. -/
theorem C9_dl_listing (req : Msg) (dir : Option (List DirEnt))
    (hperm : check_permission req.owner req.path = true) :
    (dir = none → (handle_dl_req req dir).nrnames = SFP_ERR_NOT_FOUND) ∧
    (∀ es, dir = some es →
      (handle_dl_req req dir).fstlst = positionsFrom 0 (dlTaken es 0 0) ∧
      (handle_dl_req req dir).allfilenames =
        ((dlTaken es 0 0).map DirEnt.name).flatten ∧
      (handle_dl_req req dir).nrnames = Int.ofNat (dlTaken es 0 0).length ∧
      (dlTaken es 0 0).length ≤ 40 ∧
      ∀ i d, (dlTaken es 0 0)[i]? = some d →
        (handle_dl_req req dir).fstlst[i]? =
          some (((((dlTaken es 0 0).take i).map DirEnt.name).flatten).length,
            ((((dlTaken es 0 0).take i).map DirEnt.name).flatten).length +
              d.name.length - 1, d.is_dir) ∧
        ((handle_dl_req req dir).allfilenames.drop
            (((((dlTaken es 0 0).take i).map DirEnt.name).flatten).length)).take
            d.name.length = d.name) := by
  constructor
  · intro h
    subst h
    simp [handle_dl_req, hperm]
  · intro es h
    subst h
    have hr := dlLoop_eq es 0 0
    have hh : handle_dl_req req (some es) =
        { nrnames := Int.ofNat (positionsFrom 0 (dlTaken es 0 0)).length,
          fstlst := positionsFrom 0 (dlTaken es 0 0),
          allfilenames := ((dlTaken es 0 0).map DirEnt.name).flatten } := by
      simp [handle_dl_req, hperm, hr]
    rw [hh]
    refine ⟨rfl, rfl, by rw [positionsFrom_length], ?_, ?_⟩
    · have := dlTaken_length_le es 0 0
      omega
    · intro i d hd
      obtain ⟨h1, h2⟩ := positionsFrom_spec (dlTaken es 0 0) 0 i d hd
      simp only [Nat.zero_add] at h1
      exact ⟨h1, h2⟩

def reqC9 : Msg :=
  { owner := 4, path := ['/', 'A', '4'], name := [],
    offset := 0, payload := List.replicate 16 0 }

def esC9 : List DirEnt :=
  [⟨['.'], true⟩, ⟨['.', '.'], true⟩, ⟨['s', 'u', 'b'], true⟩,
   ⟨['f', '.', 't', 'x', 't'], false⟩]

theorem C9_dl_listing_witness :
    (handle_dl_req reqC9 (some esC9)).nrnames =
      Int.ofNat (dlTaken esC9 0 0).length ∧
    (dlTaken esC9 0 0).length ≤ 40 :=
  ⟨((C9_dl_listing reqC9 (some esC9) (by decide)).2 esC9 rfl).2.2.1,
   ((C9_dl_listing reqC9 (some esC9) (by decide)).2 esC9 rfl).2.2.2.1⟩

/-! ### Kernel simulator: PCB states, ready queue, scheduler (KernelSim_T2.c) -/

inductive PState where
  | ready
  | running
  | blocked
  | terminated
deriving DecidableEq

/-- The kernel state the scheduling claims speak about: the PCB states
(index i stands for application A(i+1)), the round-robin ready queue rq
(head first), running_idx (none encodes -1), and the two reply FIFOs
(only the owner field of a queued reply matters to dispatch). -/
structure KState where
  st : Nat → PState
  rq : List Nat
  running : Option Nat
  fq : List Nat
  dq : List Nat

def N_APPS : Nat := 5

/-- rq_push_tail: the push is dropped when the queue is full or the PCB is
TERMINATED. -/
def rq_push_tail (idx : Nat) (s : KState) : KState :=
  if N_APPS ≤ s.rq.length then s
  else if s.st idx = PState.terminated then s
  else { s with rq := s.rq ++ [idx] }

/-- The three-line demotion used by schedule_next and the IRQ0 branch:
if a process is RUNNING, mark it READY and push it to the tail. -/
def demote (s : KState) : KState :=
  match s.running with
  | some r =>
    if s.st r = PState.running then
      rq_push_tail r { s with st := Function.update s.st r PState.ready }
    else s
  | none => s

/-- The while loop of schedule_next; tries counts down from rq_sz.  The
Bool is true when a READY process was found and made RUNNING. -/
def schedLoop : Nat → KState → KState × Bool
  | 0, s => (s, false)
  | tries + 1, s =>
    match s.rq with
    | [] => (s, false)
    | next :: rest =>
      let s1 : KState := { s with rq := rest }
      if s1.st next = PState.ready then
        let s2 := demote s1
        let s3 : KState :=
          { st := Function.update s2.st next PState.running,
            running := some next, rq := s2.rq, fq := s2.fq, dq := s2.dq }
        (s3, true)
      else if s1.st next ≠ PState.terminated then
        schedLoop tries (rq_push_tail next s1)
      else schedLoop tries s1

/-- The reconciliation loop of schedule_next: push every PCB whose state
is READY back into the (empty) queue, in index order. -/
def rebuildQueue (s : KState) : KState :=
  ((List.range N_APPS).filter (fun i => s.st i = PState.ready)).foldl
    (fun t i => rq_push_tail i t) s

/-- schedule_next from KernelSim_T2.c.  The fuel bounds the self-call made
after the queue is rebuilt from the READY PCBs; the C function recurses at
most once, so any fuel of at least 1 reproduces it exactly. -/
def schedule_next : Nat → KState → KState
  | fuel, s =>
    match schedLoop s.rq.length s with
    | (s1, true) => s1
    | (s1, false) =>
      let s2 := demote s1
      if s2.rq.length = 0 then
        if (List.range N_APPS).filter (fun i => s2.st i = PState.ready) ≠ [] then
          match fuel with
          | 0 => rebuildQueue s2
          | f + 1 => schedule_next f (rebuildQueue s2)
        else { rebuildQueue s2 with running := none }
      else { s2 with running := none }

def fuelK : Nat := 2

/-- The kernel events of the claims: IRQ0 quantum expiry, arrival of a
file or directory reply from SFSS, IRQ1/IRQ2 dispatch, a parsed syscall
line for PCB idx, a DONE line, and a waitpid reap. -/
inductive KEvent where
  | irq0
  | fileReply (owner : Nat)
  | dirReply (owner : Nat)
  | irq1
  | irq2
  | syscall (idx : Nat)
  | done (idx : Nat)
  | reap (idx : Nat)

/-- drain_inter, IRQ0 line. -/
def stepIrq0 (s : KState) : KState :=
  let s1 :=
    match s.running with
    | some r =>
      if s.st r = PState.running then
        { rq_push_tail r { s with st := Function.update s.st r PState.ready } with
            running := none }
      else s
    | none => s
  schedule_next fuelK s1

/-- handle_sfs_reply for RD_REP/WR_REP: enqueue unless the FIFO is full. -/
def stepFileReply (owner : Nat) (s : KState) : KState :=
  if s.fq.length < N_APPS then { s with fq := s.fq ++ [owner] } else s

/-- handle_sfs_reply for DC/DR/DL_REP. -/
def stepDirReply (owner : Nat) (s : KState) : KState :=
  if s.dq.length < N_APPS then { s with dq := s.dq ++ [owner] } else s

/-- drain_inter, IRQ1 line: pop the file-reply FIFO and unblock its owner. -/
def stepIrq1 (s : KState) : KState :=
  match s.fq with
  | [] => s
  | owner :: rest =>
    let s1 : KState := { s with fq := rest }
    if 1 ≤ owner ∧ owner - 1 < N_APPS ∧ s1.st (owner - 1) = PState.blocked then
      let s2 := rq_push_tail (owner - 1)
        { s1 with st := Function.update s1.st (owner - 1) PState.ready }
      if s2.running = none then schedule_next fuelK s2 else s2
    else s1

/-- drain_inter, IRQ2 line: same on the directory-reply FIFO. -/
def stepIrq2 (s : KState) : KState :=
  match s.dq with
  | [] => s
  | owner :: rest =>
    let s1 : KState := { s with dq := rest }
    if 1 ≤ owner ∧ owner - 1 < N_APPS ∧ s1.st (owner - 1) = PState.blocked then
      let s2 := rq_push_tail (owner - 1)
        { s1 with st := Function.update s1.st (owner - 1) PState.ready }
      if s2.running = none then schedule_next fuelK s2 else s2
    else s1

/-- drain_apps, syscall line: block the PCB and reschedule if needed. -/
def stepSyscall (idx : Nat) (s : KState) : KState :=
  if idx < N_APPS ∧ s.st idx ≠ PState.terminated then
    let s1 : KState := { s with st := Function.update s.st idx PState.blocked }
    match s1.running with
    | some r =>
      if r = idx then schedule_next fuelK { s1 with running := none }
      else s1
    | none => schedule_next fuelK s1
  else s

/-- drain_apps DONE line, and the waitpid reap loop, which run the same
transition: mark TERMINATED and reschedule if it was running. -/
def stepTerm (idx : Nat) (s : KState) : KState :=
  if idx < N_APPS ∧ s.st idx ≠ PState.terminated then
    let s1 : KState := { s with st := Function.update s.st idx PState.terminated }
    if s1.running = some idx then schedule_next fuelK { s1 with running := none }
    else s1
  else s

def kstep (s : KState) (e : KEvent) : KState :=
  match e with
  | KEvent.irq0 => stepIrq0 s
  | KEvent.fileReply owner => stepFileReply owner s
  | KEvent.dirReply owner => stepDirReply owner s
  | KEvent.irq1 => stepIrq1 s
  | KEvent.irq2 => stepIrq2 s
  | KEvent.syscall idx => stepSyscall idx s
  | KEvent.done idx => stepTerm idx s
  | KEvent.reap idx => stepTerm idx s

/-- The kernel state set up by run_kernel before the first schedule_next:
all PCBs READY, queue 0..4, nothing running, empty FIFOs. -/
def rawInit : KState :=
  { st := fun _ => PState.ready, rq := [0, 1, 2, 3, 4], running := none,
    fq := [], dq := [] }

/-- The kernel state after run_kernel's initial schedule_next. -/
def initK : KState := schedule_next fuelK rawInit

inductive KReachable : KState → Prop where
  | init : KReachable initK
  | step (s : KState) (e : KEvent) : KReachable s → KReachable (kstep s e)

/-! ### C3: at most one RUNNING PCB -/

/-- The C3 invariant: any PCB in state RUNNING is the one named by
running_idx (hence there is at most one). -/
def OneRunning (s : KState) : Prop :=
  ∀ i, s.st i = PState.running → s.running = some i

theorem rq_push_tail_st (idx : Nat) (s : KState) :
    (rq_push_tail idx s).st = s.st := by
  unfold rq_push_tail
  split_ifs <;> rfl

theorem rq_push_tail_running (idx : Nat) (s : KState) :
    (rq_push_tail idx s).running = s.running := by
  unfold rq_push_tail
  split_ifs <;> rfl

theorem demote_eq_of_none (s : KState) (h : s.running = none) : demote s = s := by
  unfold demote
  rw [h]

theorem demote_eq_of_run (s : KState) (r : Nat) (h : s.running = some r)
    (hr : s.st r = PState.running) :
    demote s = rq_push_tail r { s with st := Function.update s.st r PState.ready } := by
  unfold demote
  rw [h]
  exact if_pos hr

theorem demote_eq_of_notrun (s : KState) (r : Nat) (h : s.running = some r)
    (hr : ¬s.st r = PState.running) : demote s = s := by
  unfold demote
  rw [h]
  exact if_neg hr

theorem demote_not_running (s : KState) (h : OneRunning s) (i : Nat) :
    (demote s).st i ≠ PState.running := by
  cases hr : s.running with
  | none =>
    rw [demote_eq_of_none s hr]
    intro hi
    have := h i hi
    rw [hr] at this
    exact Option.noConfusion this
  | some r =>
    by_cases hrs : s.st r = PState.running
    · rw [demote_eq_of_run s r hr hrs, rq_push_tail_st]
      intro hi
      dsimp only at hi
      by_cases hir : i = r
      · subst hir
        rw [Function.update_same] at hi
        exact PState.noConfusion hi
      · rw [Function.update_noteq hir] at hi
        have := h i hi
        rw [hr] at this
        exact hir (Option.some.inj this).symm
    · rw [demote_eq_of_notrun s r hr hrs]
      intro hi
      have := h i hi
      rw [hr] at this
      exact hrs ((Option.some.inj this) ▸ hi)

theorem foldl_push_st (l : List Nat) : ∀ s : KState,
    (l.foldl (fun t i => rq_push_tail i t) s).st = s.st := by
  induction l with
  | nil => intro s; rfl
  | cons a l ih =>
    intro s
    rw [List.foldl_cons, ih, rq_push_tail_st]

theorem foldl_push_running (l : List Nat) : ∀ s : KState,
    (l.foldl (fun t i => rq_push_tail i t) s).running = s.running := by
  induction l with
  | nil => intro s; rfl
  | cons a l ih =>
    intro s
    rw [List.foldl_cons, ih, rq_push_tail_running]

theorem rebuildQueue_st (s : KState) : (rebuildQueue s).st = s.st :=
  foldl_push_st _ s

theorem rebuildQueue_running (s : KState) : (rebuildQueue s).running = s.running :=
  foldl_push_running _ s

theorem schedLoop_nil (t : Nat) (s : KState) (hq : s.rq = []) :
    schedLoop (t + 1) s = (s, false) := by
  unfold schedLoop
  rw [hq]

theorem schedLoop_ready (t : Nat) (s : KState) (next : Nat) (rest : List Nat)
    (hq : s.rq = next :: rest) (hready : s.st next = PState.ready) :
    schedLoop (t + 1) s =
      ({ st := Function.update (demote { s with rq := rest }).st next
            PState.running,
         running := some next,
         rq := (demote { s with rq := rest }).rq,
         fq := (demote { s with rq := rest }).fq,
         dq := (demote { s with rq := rest }).dq }, true) := by
  unfold schedLoop
  rw [hq]
  dsimp only
  rw [if_pos hready]

theorem schedLoop_repush (t : Nat) (s : KState) (next : Nat) (rest : List Nat)
    (hq : s.rq = next :: rest) (h1 : ¬s.st next = PState.ready)
    (h2 : ¬s.st next = PState.terminated) :
    schedLoop (t + 1) s = schedLoop t (rq_push_tail next { s with rq := rest }) := by
  conv_lhs => rw [schedLoop.eq_def]
  dsimp only
  rw [hq]
  dsimp only
  rw [if_neg h1, if_pos h2]

theorem schedLoop_skip (t : Nat) (s : KState) (next : Nat) (rest : List Nat)
    (hq : s.rq = next :: rest) (h1 : ¬s.st next = PState.ready)
    (h2 : s.st next = PState.terminated) :
    schedLoop (t + 1) s = schedLoop t { s with rq := rest } := by
  conv_lhs => rw [schedLoop.eq_def]
  dsimp only
  rw [hq]
  dsimp only
  rw [if_neg h1, if_neg (by rw [h2]; intro hc; exact hc rfl)]

theorem schedLoop_OneRunning : ∀ (tries : Nat) (s : KState), OneRunning s →
    OneRunning (schedLoop tries s).1 := by
  intro tries
  induction tries with
  | zero => exact fun s h => h
  | succ t ih =>
    intro s h
    cases hq : s.rq with
    | nil =>
      rw [schedLoop_nil t s hq]
      exact h
    | cons next rest =>
      have h1 : OneRunning ({ s with rq := rest } : KState) := h
      by_cases hready : s.st next = PState.ready
      · rw [schedLoop_ready t s next rest hq hready]
        intro i hi
        dsimp only at hi ⊢
        by_cases hin : i = next
        · subst hin
          rfl
        · rw [Function.update_noteq hin] at hi
          exact absurd hi (demote_not_running _ h1 i)
      · by_cases hterm : s.st next = PState.terminated
        · rw [schedLoop_skip t s next rest hq hready hterm]
          exact ih _ h1
        · rw [schedLoop_repush t s next rest hq hready hterm]
          apply ih
          intro i hi
          rw [rq_push_tail_st] at hi
          rw [rq_push_tail_running]
          exact h1 i hi

theorem schedLoop_false : ∀ (tries : Nat) (s : KState),
    (schedLoop tries s).2 = false →
    (schedLoop tries s).1.st = s.st ∧ (schedLoop tries s).1.running = s.running := by
  intro tries
  induction tries with
  | zero => exact fun s _ => ⟨rfl, rfl⟩
  | succ t ih =>
    intro s h
    cases hq : s.rq with
    | nil =>
      rw [schedLoop_nil t s hq]
      exact ⟨rfl, rfl⟩
    | cons next rest =>
      by_cases hready : s.st next = PState.ready
      · rw [schedLoop_ready t s next rest hq hready] at h
        exact absurd h (by simp)
      · by_cases hterm : s.st next = PState.terminated
        · rw [schedLoop_skip t s next rest hq hready hterm] at h ⊢
          exact ih _ h
        · rw [schedLoop_repush t s next rest hq hready hterm] at h ⊢
          have h2 := ih _ h
          constructor
          · rw [h2.1, rq_push_tail_st]
          · rw [h2.2, rq_push_tail_running]

theorem OneRunning_of_none (s : KState) (h : ∀ i, s.st i ≠ PState.running) :
    OneRunning s := fun i hi => absurd hi (h i)

theorem schedule_next_OneRunning : ∀ (fuel : Nat) (s : KState), OneRunning s →
    OneRunning (schedule_next fuel s) := by
  intro fuel
  induction fuel with
  | zero =>
    intro s h
    rw [schedule_next.eq_def]
    dsimp only
    cases hsl : schedLoop s.rq.length s with
    | mk s1 found =>
      cases found with
      | true =>
        have hOR := schedLoop_OneRunning s.rq.length s h
        rw [hsl] at hOR
        exact hOR
      | false =>
        have hpre := schedLoop_false s.rq.length s (by rw [hsl])
        rw [hsl] at hpre
        dsimp only at hpre
        have h1 : OneRunning s1 := by
          intro i hi
          rw [hpre.1] at hi
          rw [hpre.2]
          exact h i hi
        have hnr : ∀ i, (demote s1).st i ≠ PState.running :=
          fun i => demote_not_running s1 h1 i
        dsimp only
        split_ifs with hz hf
        · apply OneRunning_of_none
          intro i
          rw [rebuildQueue_st]
          exact hnr i
        · apply OneRunning_of_none
          intro i
          dsimp only
          rw [rebuildQueue_st]
          exact hnr i
        · apply OneRunning_of_none
          intro i
          dsimp only
          exact hnr i
  | succ f ih =>
    intro s h
    rw [schedule_next.eq_def]
    dsimp only
    cases hsl : schedLoop s.rq.length s with
    | mk s1 found =>
      cases found with
      | true =>
        have hOR := schedLoop_OneRunning s.rq.length s h
        rw [hsl] at hOR
        exact hOR
      | false =>
        have hpre := schedLoop_false s.rq.length s (by rw [hsl])
        rw [hsl] at hpre
        dsimp only at hpre
        have h1 : OneRunning s1 := by
          intro i hi
          rw [hpre.1] at hi
          rw [hpre.2]
          exact h i hi
        have hnr : ∀ i, (demote s1).st i ≠ PState.running :=
          fun i => demote_not_running s1 h1 i
        dsimp only
        split_ifs with hz hf
        · apply ih
          apply OneRunning_of_none
          intro i
          rw [rebuildQueue_st]
          exact hnr i
        · apply OneRunning_of_none
          intro i
          dsimp only
          rw [rebuildQueue_st]
          exact hnr i
        · apply OneRunning_of_none
          intro i
          dsimp only
          exact hnr i

theorem stepIrq0_OneRunning (s : KState) (h : OneRunning s) :
    OneRunning (stepIrq0 s) := by
  unfold stepIrq0
  apply schedule_next_OneRunning
  cases hr : s.running with
  | none => exact h
  | some r =>
    dsimp only
    by_cases hrs : s.st r = PState.running
    · rw [if_pos hrs]
      intro i hi
      dsimp only at hi
      rw [rq_push_tail_st] at hi
      dsimp only at hi
      exfalso
      by_cases hir : i = r
      · subst hir
        rw [Function.update_same] at hi
        exact PState.noConfusion hi
      · rw [Function.update_noteq hir] at hi
        have := h i hi
        rw [hr] at this
        exact hir (Option.some.inj this).symm
    · rw [if_neg hrs]
      exact h

theorem stepFileReply_OneRunning (o : Nat) (s : KState) (h : OneRunning s) :
    OneRunning (stepFileReply o s) := by
  unfold stepFileReply
  split_ifs <;> exact h

theorem stepDirReply_OneRunning (o : Nat) (s : KState) (h : OneRunning s) :
    OneRunning (stepDirReply o s) := by
  unfold stepDirReply
  split_ifs <;> exact h

theorem unblock_OneRunning (s : KState) (idx : Nat) (h : OneRunning s) :
    OneRunning (rq_push_tail idx
      { s with st := Function.update s.st idx PState.ready }) := by
  intro i hi
  rw [rq_push_tail_st] at hi
  rw [rq_push_tail_running]
  dsimp only at hi ⊢
  by_cases hir : i = idx
  · subst hir
    rw [Function.update_same] at hi
    exact absurd hi (by decide)
  · rw [Function.update_noteq hir] at hi
    exact h i hi

theorem stepIrq1_OneRunning (s : KState) (h : OneRunning s) :
    OneRunning (stepIrq1 s) := by
  unfold stepIrq1
  cases hfq : s.fq with
  | nil => exact h
  | cons owner rest =>
    have h1 : OneRunning ({ s with fq := rest } : KState) := h
    have h2 := unblock_OneRunning ({ s with fq := rest } : KState) (owner - 1) h1
    dsimp only
    split_ifs with hc hrun
    · exact schedule_next_OneRunning fuelK _ h2
    · exact h2
    · exact h1

theorem stepIrq2_OneRunning (s : KState) (h : OneRunning s) :
    OneRunning (stepIrq2 s) := by
  unfold stepIrq2
  cases hdq : s.dq with
  | nil => exact h
  | cons owner rest =>
    have h1 : OneRunning ({ s with dq := rest } : KState) := h
    have h2 := unblock_OneRunning ({ s with dq := rest } : KState) (owner - 1) h1
    dsimp only
    split_ifs with hc hrun
    · exact schedule_next_OneRunning fuelK _ h2
    · exact h2
    · exact h1

theorem block_OneRunning (s : KState) (idx : Nat) (v : PState)
    (hv : v ≠ PState.running) (h : OneRunning s) :
    OneRunning ({ s with st := Function.update s.st idx v } : KState) := by
  intro i hi
  dsimp only at hi ⊢
  by_cases hir : i = idx
  · subst hir
    rw [Function.update_same] at hi
    exact absurd hi hv
  · rw [Function.update_noteq hir] at hi
    exact h i hi

theorem stepSyscall_OneRunning (idx : Nat) (s : KState) (h : OneRunning s) :
    OneRunning (stepSyscall idx s) := by
  unfold stepSyscall
  split_ifs with hc
  · have h1 : OneRunning
        ({ s with st := Function.update s.st idx PState.blocked } : KState) :=
      block_OneRunning s idx PState.blocked (by decide) h
    dsimp only
    cases hr : s.running with
    | some r =>
      dsimp only
      split_ifs with hri
      · apply schedule_next_OneRunning
        intro i hi
        dsimp only at hi
        exfalso
        by_cases hik : i = idx
        · subst hik
          rw [Function.update_same] at hi
          exact absurd hi (by decide)
        · rw [Function.update_noteq hik] at hi
          have h3 := h i hi
          rw [hr] at h3
          subst hri
          exact hik (Option.some.inj h3).symm
      · intro i hi
        dsimp only at hi ⊢
        have h3 := h1 i hi
        dsimp only at h3
        rw [hr] at h3
        exact h3
    | none =>
      dsimp only
      apply schedule_next_OneRunning
      intro i hi
      dsimp only at hi ⊢
      have h3 := h1 i hi
      dsimp only at h3
      rw [hr] at h3
      exact h3
  · exact h

theorem stepTerm_OneRunning (idx : Nat) (s : KState) (h : OneRunning s) :
    OneRunning (stepTerm idx s) := by
  unfold stepTerm
  split_ifs with hc
  · have h1 : OneRunning
        ({ s with st := Function.update s.st idx PState.terminated } : KState) :=
      block_OneRunning s idx PState.terminated (by decide) h
    dsimp only
    split_ifs with hr
    · apply schedule_next_OneRunning
      intro i hi
      dsimp only at hi hr
      have h2 := h1 i hi
      dsimp only at h2
      rw [hr] at h2
      exfalso
      have hik : idx = i := Option.some.inj h2
      subst hik
      rw [Function.update_same] at hi
      exact absurd hi (by decide)
    · exact h1
  · exact h

theorem kstep_OneRunning (s : KState) (e : KEvent) (h : OneRunning s) :
    OneRunning (kstep s e) := by
  cases e with
  | irq0 => exact stepIrq0_OneRunning s h
  | fileReply o => exact stepFileReply_OneRunning o s h
  | dirReply o => exact stepDirReply_OneRunning o s h
  | irq1 => exact stepIrq1_OneRunning s h
  | irq2 => exact stepIrq2_OneRunning s h
  | syscall idx => exact stepSyscall_OneRunning idx s h
  | done idx => exact stepTerm_OneRunning idx s h
  | reap idx => exact stepTerm_OneRunning idx s h

theorem OneRunning_rawInit : OneRunning rawInit := by
  intro i hi
  have hready : rawInit.st i = PState.ready := rfl
  rw [hready] at hi
  exact PState.noConfusion hi

theorem OneRunning_initK : OneRunning initK :=
  schedule_next_OneRunning fuelK rawInit OneRunning_rawInit

theorem KReachable_OneRunning (s : KState) (h : KReachable s) : OneRunning s := by
  induction h with
  | init => exact OneRunning_initK
  | step s e _ ih => exact kstep_OneRunning s e ih

/-- C3: in every reachable kernel state at most one PCB is in state
RUNNING, and when one is, it is the PCB indexed by running_idx. -/
theorem C3_at_most_one_running (s : KState) (h : KReachable s) :
    (∀ i j, s.st i = PState.running → s.st j = PState.running → i = j) ∧
    (∀ i, s.st i = PState.running → s.running = some i) := by
  have hOR : OneRunning s := KReachable_OneRunning s h
  refine ⟨fun i j hi hj => ?_, hOR⟩
  have h1 := hOR i hi
  have h2 := hOR j hj
  rw [h1] at h2
  exact Option.some.inj h2

theorem C3_at_most_one_running_witness :
    (∀ i j, initK.st i = PState.running → initK.st j = PState.running → i = j) ∧
    (∀ i, initK.st i = PState.running → initK.running = some i) :=
  C3_at_most_one_running initK KReachable.init

/-! ### C2: the ready queue can hold the same index twice -/

/-- A real interleaving: A1 is preempted by IRQ0 (so index 0 sits in the
ready queue), its already-written syscall line is then parsed (BLOCKED
while still enqueued), the SFSS reply for owner 1 arrives, and IRQ1
unblocks it — pushing index 0 a second time. -/
def dupState : KState :=
  kstep (kstep (kstep (kstep initK KEvent.irq0) (KEvent.syscall 0))
    (KEvent.fileReply 1)) KEvent.irq1

/-- C2 fails on the code: dupState is reachable and its ready queue is
[2, 3, 4, 0, 0] — index 0 occurs twice between head and tail. -/
theorem C2_ready_queue_duplicate :
    KReachable dupState ∧ dupState.rq = [2, 3, 4, 0, 0] ∧
    ¬dupState.rq.Nodup := by
  refine ⟨?_, by decide, by decide⟩
  exact KReachable.step _ KEvent.irq1
    (KReachable.step _ (KEvent.fileReply 1)
      (KReachable.step _ (KEvent.syscall 0)
        (KReachable.step _ KEvent.irq0 KReachable.init)))

/-! ### C10: exit codes of the kernelsim binary -/

/-- EXIT_FAILURE as defined by the C library the Makefile targets (glibc). -/
def EXIT_FAILURE : Nat := 1

def atoiDigits : List Char → Int → Int
  | [], acc => acc
  | c :: cs, acc =>
    if '0' ≤ c ∧ c ≤ '9' then
      atoiDigits cs (acc * 10 + ((c.toNat - '0'.toNat : Nat) : Int))
    else acc

def isSpaceChar (c : Char) : Bool :=
  c == ' ' || c == '\t' || c == '\n' || c == '\x0b' || c == '\x0c' || c == '\r'

/-- atoi: skip isspace characters, optional sign, then the leading digits. -/
def atoi (s : List Char) : Int :=
  match s.dropWhile isSpaceChar with
  | '-' :: cs => - atoiDigits cs 0
  | '+' :: cs => atoiDigits cs 0
  | cs => atoiDigits cs 0

/-- Which of run_kernel's startup steps succeed (in program order:
socket, inet_pton, the two pipes, the intercontroller fork, shmget,
shmat, the app forks). -/
structure StartupOracle where
  socketOk : Bool
  ptonOk : Bool
  pipesOk : Bool
  forkInterOk : Bool
  shmgetOk : Bool
  shmatOk : Bool
  forkAppOk : Bool
deriving DecidableEq

/-- The process exit code of the kernel role: each failing startup step
calls die, which exits with EXIT_FAILURE; otherwise run_kernel returns
and main returns 0. -/
def kernelExitCode (orc : StartupOracle) : Nat :=
  if orc.socketOk = false then EXIT_FAILURE
  else if orc.ptonOk = false then EXIT_FAILURE
  else if orc.pipesOk = false then EXIT_FAILURE
  else if orc.forkInterOk = false then EXIT_FAILURE
  else if orc.shmgetOk = false then EXIT_FAILURE
  else if orc.shmatOk = false then EXIT_FAILURE
  else if orc.forkAppOk = false then EXIT_FAILURE
  else 0

inductive MainOutcome where
  | exit (code : Nat)
  | runInter
  | runApp (id : Int)
deriving DecidableEq

/-- main from KernelSim_T2.c; args is argv[1..].  No arguments runs the
kernel; "inter" runs the interrupt controller forever; "app" with an id
argument clamps atoi(argv[2]) into 1..5 and runs the app; anything else
prints usage and returns 1. -/
def mainRun (args : List (List Char)) (orc : StartupOracle) : MainOutcome :=
  match args with
  | [] => MainOutcome.exit (kernelExitCode orc)
  | [a1] =>
    if a1 = "inter".data then MainOutcome.runInter
    else MainOutcome.exit 1
  | a1 :: a2 :: _ =>
    if a1 = "inter".data then MainOutcome.runInter
    else if a1 = "app".data then
      MainOutcome.runApp (if atoi a2 < 1 ∨ 5 < atoi a2 then 1 else atoi a2)
    else MainOutcome.exit 1

theorem kernelExitCode_cases (orc : StartupOracle) :
    kernelExitCode orc = 0 ∨ kernelExitCode orc = EXIT_FAILURE := by
  unfold kernelExitCode
  split_ifs <;> simp

/-- C10 counterexample: with a failing socket call at startup the kernel
role exits with EXIT_FAILURE = 1, not with 2 as the claim states. -/
theorem C10_startup_failure_exits_1 :
    mainRun [] (StartupOracle.mk false true true true true true true) =
      MainOutcome.exit 1 ∧ (1 : Nat) ≠ 2 :=
  ⟨rfl, by decide⟩

/-- C10 as amended: the exit code is 0 on clean exit, 1 on bad arguments,
and 1 (EXIT_FAILURE) — not 2 — on every fatal startup failure; no other
exit code occurs at the top level; and for app ids outside 1..5 (with
non-numeric arguments parsing as 0) the binary does not exit with the
bad-args code but clamps the id to 1 and runs as application A1. -/
theorem C10_exit_codes (args : List (List Char)) (orc : StartupOracle) :
    (∀ c, mainRun args orc = MainOutcome.exit c → c = 0 ∨ c = 1) ∧
    (mainRun [] orc = MainOutcome.exit (kernelExitCode orc) ∧
      ((orc.socketOk = false ∨ orc.ptonOk = false ∨ orc.pipesOk = false ∨
          orc.forkInterOk = false ∨ orc.shmgetOk = false ∨
          orc.shmatOk = false ∨ orc.forkAppOk = false) →
        kernelExitCode orc = EXIT_FAILURE)) ∧
    (∀ a2 rest, mainRun ("app".data :: a2 :: rest) orc =
        MainOutcome.runApp (if atoi a2 < 1 ∨ 5 < atoi a2 then 1 else atoi a2) ∧
      1 ≤ (if atoi a2 < 1 ∨ 5 < atoi a2 then 1 else atoi a2) ∧
      (if atoi a2 < 1 ∨ 5 < atoi a2 then 1 else atoi a2) ≤ 5 ∧
      ((atoi a2 < 1 ∨ 5 < atoi a2) →
        mainRun ("app".data :: a2 :: rest) orc = MainOutcome.runApp 1)) := by
  refine ⟨?_, ⟨rfl, ?_⟩, ?_⟩
  · intro c hc
    match args with
    | [] =>
      simp only [mainRun, MainOutcome.exit.injEq] at hc
      subst hc
      rcases kernelExitCode_cases orc with h | h <;> rw [h]
      · exact Or.inl rfl
      · exact Or.inr rfl
    | [a1] =>
      by_cases hi : a1 = "inter".data
      · simp [mainRun, hi] at hc
      · simp only [mainRun, if_neg hi, MainOutcome.exit.injEq] at hc
        exact Or.inr hc.symm
    | a1 :: a2 :: rest =>
      by_cases hi : a1 = "inter".data
      · simp [mainRun, hi] at hc
      · by_cases ha : a1 = "app".data
        · simp [mainRun, if_neg hi, ha] at hc
        · simp only [mainRun, if_neg hi, if_neg ha, MainOutcome.exit.injEq] at hc
          exact Or.inr hc.symm
  · intro hfail
    unfold kernelExitCode
    rcases hfail with h | h | h | h | h | h | h <;> simp [h]
  · intro a2 rest
    have hne : ("app".data : List Char) ≠ "inter".data := by decide
    refine ⟨by simp [mainRun, hne], ?_, ?_, ?_⟩
    · split_ifs with h
      · exact le_refl 1
      · omega
    · split_ifs with h
      · omega
      · omega
    · intro h
      simp [mainRun, hne, h]

def orcStartupOk : StartupOracle :=
  StartupOracle.mk true true true true true true true

theorem C10_exit_codes_witness :
    mainRun ["app".data, "7".data] orcStartupOk = MainOutcome.runApp 1 :=
  ((C10_exit_codes ["app".data, "7".data] orcStartupOk).2.2 "7".data []).2.2.2
    (by decide)
